import Mathlib

/-!
Verification of the number-theory core of thalesians/adiutor
(src/thalesians/adiutor/number_theory.py) against its specification.

The Python functions are shallowly embedded:
* generators (`primes`, `prime_pairs`) become fuel-indexed step functions that
  return the list of yielded values together with a flag recording whether the
  generator executed its `return` (terminated) within the given fuel;
* fallible code (`ValueError`, `ZeroDivisionError`) returns `Except String _`;
* Python integers are `ℤ`/`ℕ` and exact fractional values are `ℚ`;
* the external statistics capability (numpy/scipy mean, median, std, skew,
  kurtosis and float finiteness) is a parameter (`StatsLib`), as the spec
  classifies these as external interfaces with standard semantics.
-/

namespace Adiutor

/-- Trial-division primality test: `2 ≤ n` and no divisor in `[2, n)`.  This
embeds the external primality oracle `sympy.isprime` that both generators
consume (the spec requires a deterministic oracle correct for all integers);
`isPrime_iff` below certifies it against Mathlib's `Nat.Prime`. -/
def isPrime (n : ℕ) : Bool :=
  if n < 2 then false else (List.range (n - 2)).all (fun d => n % (d + 2) != 0)

theorem isPrime_iff (n : ℕ) : isPrime n = true ↔ n.Prime := by
  rw [Nat.prime_def_lt']
  unfold isPrime
  by_cases h : n < 2
  · simp only [if_pos h]
    constructor
    · intro hc; exact absurd hc (by simp)
    · rintro ⟨h2, -⟩; omega
  · simp only [if_neg h, List.all_eq_true, List.mem_range, bne_iff_ne, ne_eq,
      decide_eq_true_eq]
    constructor
    · intro H
      refine ⟨by omega, ?_⟩
      intro m hm hmn hdvd
      have hmod : n % m = 0 := Nat.dvd_iff_mod_eq_zero.mp hdvd
      have := H (m - 2) (by omega)
      have hm2 : m - 2 + 2 = m := by omega
      rw [hm2] at this
      exact this hmod
    · rintro ⟨-, H⟩ d hd hmod
      exact H (d + 2) (by omega) (by omega) (Nat.dvd_iff_mod_eq_zero.mpr hmod)

/-- Embeds the `primes` generator (number_theory.py, lines 125-134).  The
candidate `n` starts at 2 and increases by 1; at the top of each iteration the
generator returns when `max_count is not None and count == max_count`; a prime
candidate is yielded and counted.  `fuel` bounds how many candidates are
examined; the Bool records whether `return` was executed within the fuel. -/
def primesAux : ℕ → ℕ → ℕ → Option ℕ → List ℕ × Bool
  | 0, _, _, _ => ([], false)
  | fuel + 1, n, count, mc =>
    if mc = some count then ([], true)
    else if isPrime n then
      let r := primesAux fuel (n + 1) (count + 1) mc
      (n :: r.1, r.2)
    else primesAux fuel (n + 1) count mc

/-- Run of `primes(max_count=mc)` examining candidates `2, 3, …, 2 + fuel - 1`. -/
def primesRun (mc : Option ℕ) (fuel : ℕ) : List ℕ × Bool :=
  primesAux fuel 2 0 mc

theorem primesAux_mem {fuel n count mc x}
    (hx : x ∈ (primesAux fuel n count mc).1) : n ≤ x ∧ isPrime x = true := by
  induction fuel generalizing n count with
  | zero => simp [primesAux] at hx
  | succ fuel ih =>
    rw [primesAux] at hx
    split at hx
    · simp at hx
    · split at hx
      · rcases List.mem_cons.mp hx with h | h
        · subst h; exact ⟨le_refl _, by assumption⟩
        · have := ih h
          exact ⟨by omega, this.2⟩
      · have := ih hx
        exact ⟨by omega, this.2⟩

theorem primesAux_sorted (fuel n count mc) :
    ((primesAux fuel n count mc).1).Sorted (· < ·) := by
  induction fuel generalizing n count with
  | zero => simp [primesAux]
  | succ fuel ih =>
    rw [primesAux]
    split
    · simp
    · split
      · refine List.sorted_cons.mpr ⟨?_, ih _ _⟩
        intro b hb
        have := primesAux_mem hb
        omega
      · exact ih _ _

theorem primesAux_length : ∀ (fuel : ℕ) {n count m : ℕ} {l : List ℕ},
    primesAux fuel n count (some m) = (l, true) → count + l.length = m := by
  intro fuel
  induction fuel with
  | zero => intro n count m l h; simp [primesAux] at h
  | succ fuel ih =>
    intro n count m l h
    rw [primesAux] at h
    split at h
    · rename_i hm
      obtain ⟨h1, -⟩ := Prod.mk.injEq .. ▸ h
      have : m = count := by simpa using hm
      simp [← h1, this]
    · split at h
      · have h2 : (primesAux fuel (n + 1) (count + 1) (some m)).2 = true := by
          have := congrArg Prod.snd h
          simpa using this
        have h1 := congrArg Prod.fst h
        simp only at h1
        have hpair : primesAux fuel (n + 1) (count + 1) (some m) =
            ((primesAux fuel (n + 1) (count + 1) (some m)).1, true) := by
          rw [← h2]
        have := ih hpair
        rw [← h1]
        simp only [List.length_cons]
        omega
      · exact ih h

theorem primesAux_skip {d fuel n count m} (hm : m ≠ count)
    (hcomp : ∀ j, j < d → isPrime (n + j) = false) :
    primesAux (d + fuel) n count (some m) = primesAux fuel (n + d) count (some m) := by
  induction d generalizing n with
  | zero => simp
  | succ d ih =>
    have hdf : d + 1 + fuel = (d + fuel) + 1 := by omega
    rw [hdf, primesAux]
    have h0 : isPrime n = false := by simpa using hcomp 0 (by omega)
    have hne : ¬ ((some m : Option ℕ) = some count) := by simpa using hm
    rw [if_neg hne, h0]
    simp only [Bool.false_eq_true, if_false]
    have := ih (n := n + 1) (fun j hj => by
      have := hcomp (j + 1) (by omega)
      simpa [Nat.add_assoc, Nat.add_comm 1 j] using this)
    rw [this]
    ring_nf

theorem primesAux_exists_terminate (m : ℕ) : ∀ (n count : ℕ),
    ∃ fuel l, primesAux fuel n count (some (count + m)) = (l, true) := by
  induction m with
  | zero =>
    intro n count
    refine ⟨1, [], ?_⟩
    rw [Nat.add_zero]
    show primesAux (0 + 1) n count (some count) = ([], true)
    rw [primesAux, if_pos rfl]
  | succ m ih =>
    intro n count
    obtain ⟨p, hple, hp⟩ := Nat.exists_infinite_primes n
    have hex : ∃ k, isPrime (n + k) = true :=
      ⟨p - n, by
        have : n + (p - n) = p := by omega
        rw [this]
        exact (isPrime_iff p).mpr hp⟩
    have hk : isPrime (n + Nat.find hex) = true := Nat.find_spec hex
    have hlt : ∀ j, j < Nat.find hex → isPrime (n + j) = false := by
      intro j hj
      have := Nat.find_min hex hj
      simpa using this
    obtain ⟨fuel, l, hl⟩ := ih (n + Nat.find hex + 1) (count + 1)
    refine ⟨Nat.find hex + (fuel + 1), (n + Nat.find hex) :: l, ?_⟩
    rw [primesAux_skip (by omega) hlt, primesAux]
    have hne : ¬ ((some (count + (m + 1)) : Option ℕ) = some count) := by
      simp only [Option.some.injEq]
      omega
    rw [if_neg hne, hk]
    simp only [if_true]
    have harith : count + (m + 1) = (count + 1) + m := by omega
    rw [harith, hl]

theorem primesAux_head_two {fuel count mc l b}
    (h : primesAux fuel 2 count mc = (l, b)) (hne : l ≠ []) :
    l.head? = some 2 := by
  cases fuel with
  | zero =>
    rw [primesAux] at h
    obtain ⟨h1, -⟩ := Prod.mk.injEq .. ▸ h
    exact absurd h1.symm hne
  | succ fuel =>
    rw [primesAux] at h
    split at h
    · obtain ⟨h1, -⟩ := Prod.mk.injEq .. ▸ h
      exact absurd h1.symm hne
    · have h2 : isPrime 2 = true := by decide
      rw [h2] at h
      simp only [if_true] at h
      obtain ⟨h1, -⟩ := Prod.mk.injEq .. ▸ h
      rw [← h1]
      rfl

/-- C6: for every n ≥ 0, `primes(max_count=n)` terminates after yielding exactly
`n` values, in strictly increasing order, each passing the primality oracle,
and starting with 2 when n ≥ 1. -/
theorem c6_primes_exact_count (n : ℕ) :
    ∃ fuel l, primesRun (some n) fuel = (l, true) ∧ l.length = n ∧
      l.Sorted (· < ·) ∧ (∀ x ∈ l, isPrime x = true) ∧
      (1 ≤ n → l.head? = some 2) := by
  obtain ⟨fuel, l, hl⟩ := primesAux_exists_terminate n 2 0
  rw [Nat.zero_add] at hl
  refine ⟨fuel, l, hl, ?_, ?_, ?_, ?_⟩
  · have := primesAux_length fuel hl
    omega
  · have := primesAux_sorted fuel 2 0 (some n)
    rw [hl] at this
    exact this
  · intro x hx
    have hx' : x ∈ (primesAux fuel 2 0 (some n)).1 := by rw [hl]; exact hx
    exact (primesAux_mem hx').2
  · intro hn
    refine primesAux_head_two hl ?_
    have hlen := primesAux_length fuel hl
    intro hnil
    rw [hnil] at hlen
    simp at hlen
    omega

/-- Embeds the inner loop of `prime_pairs` (lines 145-148): for each previously
discovered prime q (in discovery order), the generator first checks
`count == max_count` (returning if so), then increments the count and yields
`(n, q)`.  Returns the yielded pairs, the final count, and whether the
generator returned (halted) inside the loop. -/
def pairInner : List ℕ → ℕ → ℕ → Option ℕ → List (ℕ × ℕ) × ℕ × Bool
  | [], _, count, _ => ([], count, false)
  | q :: qs, n, count, mc =>
    if mc = some count then ([], count, true)
    else
      let r := pairInner qs n (count + 1) mc
      ((n, q) :: r.1, r.2)

/-- Embeds the `prime_pairs` generator (lines 136-152).  At the top of each
candidate iteration the generator returns when `count == max_count`; for a
prime candidate it runs the inner loop over the discovered primes, then —
without any further cap check — increments the count, yields the self-pair
`(n, n)` and appends `n` to the discovered list. -/
def primePairsAux : ℕ → ℕ → List ℕ → ℕ → Option ℕ → List (ℕ × ℕ) × Bool
  | 0, _, _, _, _ => ([], false)
  | fuel + 1, n, ps, count, mc =>
    if mc = some count then ([], true)
    else if isPrime n then
      let r := pairInner ps n count mc
      if r.2.2 then (r.1, true)
      else
        let rest := primePairsAux fuel (n + 1) (ps ++ [n]) (r.2.1 + 1) mc
        (r.1 ++ (n, n) :: rest.1, rest.2)
    else primePairsAux fuel (n + 1) ps count mc

/-- Run of `prime_pairs(max_count=mc)` examining candidates `2, …, 2 + fuel - 1`. -/
def primePairsRun (mc : Option ℕ) (fuel : ℕ) : List (ℕ × ℕ) × Bool :=
  primePairsAux fuel 2 [] 0 mc

/-- Embeds `semi_primes` (lines 154-157), a pass-through of `prime_pairs`. -/
def semiPrimesRun (mc : Option ℕ) (fuel : ℕ) : List (ℕ × ℕ) × Bool :=
  primePairsRun mc fuel

/-- C5: the first six pairs emitted are (2,2), (3,2), (3,3), (5,2), (5,3),
(5,5): pairs with all previously discovered primes in increasing order, then
the self-pair, before the next prime.  The unbounded generator emits exactly
these six over candidates 2..6, and `max_count=6` terminates after them. -/
theorem c5_prime_pairs_first_six :
    primePairsRun Option.none 5 =
      ([(2, 2), (3, 2), (3, 3), (5, 2), (5, 3), (5, 5)], false) ∧
    primePairsRun (Option.some 6) 5 =
      ([(2, 2), (3, 2), (3, 3), (5, 2), (5, 3), (5, 5)], true) := by
  exact ⟨by decide, by decide⟩

theorem pairInner_inv (qs : List ℕ) (n : ℕ) {count m : ℕ} (h : m < count) :
    (pairInner qs n count (some m)).2.2 = false ∧
      m < (pairInner qs n count (some m)).2.1 := by
  induction qs generalizing count with
  | nil => simpa [pairInner] using h
  | cons q qs ih =>
    rw [pairInner]
    have hne : ¬ ((some m : Option ℕ) = some count) := by simp; omega
    rw [if_neg hne]
    exact ih (by omega)

theorem primePairsAux_inv {fuel n ps count m} (h : m < count) :
    (primePairsAux fuel n ps count (some m)).2 = false := by
  induction fuel generalizing n ps count with
  | zero => simp [primePairsAux]
  | succ fuel ih =>
    rw [primePairsAux]
    have hne : ¬ ((some m : Option ℕ) = some count) := by simp; omega
    rw [if_neg hne]
    by_cases hp : isPrime n
    · rw [hp]
      simp only [if_true]
      obtain ⟨h1, h2⟩ := pairInner_inv ps n h
      rw [h1]
      simp only [Bool.false_eq_true, if_false]
      exact ih (by omega)
    · rw [Bool.not_eq_true] at hp
      rw [hp]
      simp only [Bool.false_eq_true, if_false]
      exact ih h

theorem primePairs_two_unfold (f : ℕ) :
    primePairsAux (f + 2) 2 [] 0 (some 2) =
      ((2, 2) :: (3, 2) :: (3, 3) :: (primePairsAux f 4 [2, 3] 3 (some 2)).1,
        (primePairsAux f 4 [2, 3] 3 (some 2)).2) := rfl

/-- C2 fails on the code: with `max_count = 2` the generator still emits the
self-pair (3,3) as a third pair (there is no cap check before the self-pair
yield), and since the cap check tests equality and the count has then passed
the cap, the generator never returns: for every fuel it has not terminated,
and from fuel 2 on the first three emitted pairs are (2,2), (3,2), (3,3). -/
theorem c2_prime_pairs_cap_overrun :
    (∀ fuel, (primePairsRun (some 2) fuel).2 = false) ∧
    (∀ fuel, ((primePairsRun (some 2) (fuel + 2)).1).take 3 =
      [(2, 2), (3, 2), (3, 3)]) := by
  constructor
  · intro fuel
    rcases fuel with _ | _ | f
    · rfl
    · rfl
    · show (primePairsAux (f + 2) 2 [] 0 (some 2)).2 = false
      rw [primePairs_two_unfold]
      exact primePairsAux_inv (by omega)
  · intro fuel
    show ((primePairsAux (fuel + 2) 2 [] 0 (some 2)).1).take 3 = _
    rw [primePairs_two_unfold]
    rfl

/-- Python true division over exact values: `a / b` raises
`ZeroDivisionError` when `b == 0` and otherwise produces the exact ratio
(floating-point rounding is abstracted to exact rationals). -/
def pydiv (a b : ℚ) : Except String ℚ :=
  if b = 0 then Except.error "division by zero" else Except.ok (a / b)

/-- Embeds `imbalance` (line 159-160): `abs(p - q) / (p + q)`. -/
def imbalance (p q : ℤ) : Except String ℚ :=
  pydiv ((|p - q| : ℤ) : ℚ) (((p + q : ℤ) : ℚ))

/-- Embeds `imbalance_lowest_terms` (line 162-163):
`fractions.Fraction(abs(p - q), p + q)`, which reduces to lowest terms with a
positive denominator and raises `ZeroDivisionError` on a zero denominator; a
Lean `ℚ` is stored in exactly that normal form. -/
def imbalance_lowest_terms (p q : ℤ) : Except String ℚ :=
  if p + q = 0 then Except.error "division by zero"
  else Except.ok (((|p - q| : ℤ) : ℚ) / (((p + q : ℤ) : ℚ)))

/-- Embeds `imbnum` (line 165-166): the numerator of the reduced fraction. -/
def imbnum (p q : ℤ) : Except String ℤ :=
  (imbalance_lowest_terms p q).map Rat.num

/-- Embeds `imbden` (line 168-169): the denominator of the reduced fraction. -/
def imbden (p q : ℤ) : Except String ℕ :=
  (imbalance_lowest_terms p q).map Rat.den

/-- C4 counterexample: the claimed range [0, 1) fails for mixed-sign inputs
(`imbalance(5, -3) == 4`) and when one argument is zero
(`imbalance(1, 0) == 1`). -/
theorem c4_counterexample :
    imbalance 5 (-3) = Except.ok 4 ∧ imbalance 1 0 = Except.ok 1 ∧
      ¬ ((4 : ℚ) < 1) ∧ ¬ ((1 : ℚ) < 1) := by
  refine ⟨?_, ?_, by norm_num, by norm_num⟩ <;>
    · unfold imbalance pydiv
      norm_num

/-- C4 amended: for positive integers p, q the imbalance
`|p - q| / (p + q)` is a rational in the half-open interval [0, 1). -/
theorem c4_imbalance_range (p q : ℤ) (hp : 1 ≤ p) (hq : 1 ≤ q) :
    ∃ r : ℚ, imbalance p q = Except.ok r ∧ 0 ≤ r ∧ r < 1 := by
  have hpq : (0 : ℤ) < p + q := by omega
  have hcast : (((p + q : ℤ)) : ℚ) ≠ 0 := by
    exact_mod_cast hpq.ne'
  have hcast' : (0 : ℚ) < ((p + q : ℤ) : ℚ) := by exact_mod_cast hpq
  refine ⟨((|p - q| : ℤ) : ℚ) / (((p + q : ℤ)) : ℚ), ?_, ?_, ?_⟩
  · unfold imbalance pydiv
    rw [if_neg hcast]
  · apply div_nonneg _ hcast'.le
    exact_mod_cast abs_nonneg (p - q)
  · rw [div_lt_one hcast']
    have habs : |p - q| < p + q := by
      rw [abs_lt]
      omega
    exact_mod_cast habs

/-- C4 witness: the amended range statement at (5, 7), where the imbalance
is 1/6. -/
theorem c4_witness :
    (1 : ℤ) ≤ 5 ∧ (1 : ℤ) ≤ 7 ∧
      ∃ r : ℚ, imbalance 5 7 = Except.ok r ∧ 0 ≤ r ∧ r < 1 :=
  ⟨by decide, by decide, c4_imbalance_range 5 7 (by decide) (by decide)⟩

/-- C7: whenever p + q == 0, both `imbalance` and `imbalance_lowest_terms`
raise the underlying division-by-zero error (they propagate it rather than
returning 0 or infinity). -/
theorem c7_zero_sum_raises (p q : ℤ) (h : p + q = 0) :
    imbalance p q = Except.error "division by zero" ∧
      imbalance_lowest_terms p q = Except.error "division by zero" := by
  constructor
  · unfold imbalance pydiv
    rw [if_pos (by exact_mod_cast congrArg (Int.cast : ℤ → ℚ) h)]
  · unfold imbalance_lowest_terms
    rw [if_pos h]

/-- C7 witness: the division failure at (5, -5). -/
theorem c7_witness :
    (5 : ℤ) + (-5) = 0 ∧
      imbalance 5 (-5) = Except.error "division by zero" ∧
      imbalance_lowest_terms 5 (-5) = Except.error "division by zero" :=
  ⟨by decide, (c7_zero_sum_raises 5 (-5) (by decide)).1,
    (c7_zero_sum_raises 5 (-5) (by decide)).2⟩

/-- Repeated division by `base`, least-significant digit first: the body of
the `while number > 0` loop in `digits` (lines 180-184).  The first argument
is fuel; `n` itself is always enough fuel because the quotient strictly
decreases for `base ≥ 2` (certified by `digitsLoopF_fuel`). -/
def digitsLoopF (base : ℕ) : ℕ → ℕ → List ℕ
  | 0, _ => []
  | fuel + 1, n => if n = 0 then [] else n % base :: digitsLoopF base fuel (n / base)

/-- The digit list of `n` in base `base` (least-significant first). -/
def digitsLoop (base n : ℕ) : List ℕ :=
  digitsLoopF base n n

theorem digitsLoopF_fuel {base : ℕ} (hb : 2 ≤ base) :
    ∀ fuel fuel' n, n ≤ fuel → n ≤ fuel' →
      digitsLoopF base fuel n = digitsLoopF base fuel' n := by
  intro fuel
  induction fuel with
  | zero =>
    intro fuel' n hn _
    interval_cases n
    cases fuel' <;> rfl
  | succ fuel ih =>
    intro fuel' n hn hn'
    cases fuel' with
    | zero =>
      interval_cases n
      rfl
    | succ fuel' =>
      rw [digitsLoopF, digitsLoopF]
      by_cases h0 : n = 0
      · rw [if_pos h0, if_pos h0]
      · rw [if_neg h0, if_neg h0]
        have hdiv : n / base < n := Nat.div_lt_self (by omega) (by omega)
        rw [ih fuel' (n / base) (by omega) (by omega)]

/-- Embeds `digits(number, base)` (lines 177-184): validates `base ≥ 2` then
`number ≥ 0`, then collects remainders of repeated division, least-significant
first (empty for `number == 0`). -/
def digits (number : ℤ) (base : ℤ) : Except String (List ℤ) :=
  if base < 2 then Except.error "Base must be at least 2"
  else if number < 0 then Except.error "Number must be non-negative"
  else Except.ok ((digitsLoop base.toNat number.toNat).map Int.ofNat)

/-- The reconstruction `sum(d * base**i for i, d in enumerate(digits))` from
the spec's round-trip property, summed over the enumerated digit list. -/
def enumSum (base : ℤ) (ds : List ℤ) : ℤ :=
  ((ds.enum).map (fun p => p.2 * base ^ p.1)).sum

theorem enumFromSum_shift (base : ℤ) (ds : List ℤ) : ∀ k : ℕ,
    ((ds.enumFrom (k + 1)).map (fun p => p.2 * base ^ p.1)).sum =
      base * ((ds.enumFrom k).map (fun p => p.2 * base ^ p.1)).sum := by
  induction ds with
  | nil => intro k; simp
  | cons d ds ih =>
    intro k
    simp only [List.enumFrom_cons, List.map_cons, List.sum_cons, ih (k + 1)]
    ring

theorem enumSum_cons (base d : ℤ) (ds : List ℤ) :
    enumSum base (d :: ds) = d + base * enumSum base ds := by
  unfold enumSum
  rw [List.enum_cons]
  simp only [List.map_cons, List.sum_cons, pow_zero, mul_one]
  rw [show (1 : ℕ) = 0 + 1 from rfl, enumFromSum_shift]
  rfl

theorem digitsLoop_roundtrip {base : ℕ} (hb : 2 ≤ base) (n : ℕ) :
    enumSum (base : ℤ) ((digitsLoop base n).map Int.ofNat) = (n : ℤ) := by
  induction n using Nat.strong_induction_on with
  | _ n ih =>
    by_cases h0 : n = 0
    · subst h0
      rfl
    · have hdiv : n / base < n := Nat.div_lt_self (by omega) (by omega)
      have hstep : digitsLoop base n =
          n % base :: digitsLoop base (n / base) := by
        unfold digitsLoop
        cases n with
        | zero => exact absurd rfl h0
        | succ k =>
          rw [digitsLoopF, if_neg h0]
          congr 1
          exact digitsLoopF_fuel hb k ((k + 1) / base) ((k + 1) / base)
            (by omega) (le_refl _)
      rw [hstep]
      simp only [List.map_cons]
      rw [enumSum_cons, ih (n / base) hdiv]
      simp only [Int.ofNat_eq_coe]
      exact_mod_cast Nat.mod_add_div n base

/-- C8: for every non-negative number and base ≥ 2, the digit decomposition
round-trips: `sum(d * base**i for i, d in enumerate(digits(number, base)))`
reproduces the number. -/
theorem c8_digits_roundtrip (number base : ℤ) (hnum : 0 ≤ number)
    (hbase : 2 ≤ base) :
    ∃ ds, digits number base = Except.ok ds ∧ enumSum base ds = number := by
  refine ⟨(digitsLoop base.toNat number.toNat).map Int.ofNat, ?_, ?_⟩
  · unfold digits
    rw [if_neg (by omega), if_neg (by omega)]
  · have hb2 : 2 ≤ base.toNat := by omega
    have hb0 : (0 : ℤ) ≤ base := by omega
    have := digitsLoop_roundtrip hb2 number.toNat
    rw [Int.toNat_of_nonneg hnum, Int.toNat_of_nonneg hb0] at this
    exact this

/-- C8 witness: `digits(123, 10) == [3, 2, 1]` reconstructs to 123. -/
theorem c8_witness :
    (0 : ℤ) ≤ 123 ∧ (2 : ℤ) ≤ 10 ∧
      ∃ ds, digits 123 10 = Except.ok ds ∧ enumSum 10 ds = 123 :=
  ⟨by decide, by decide, c8_digits_roundtrip 123 10 (by decide) (by decide)⟩

/-- Most-significant-first digit list of the positional representation used by
`np.base_repr`: the reversed remainder loop, except that 0 is rendered as the
single digit list [0]. -/
def reprDigits (base n : ℕ) : List ℕ :=
  if n = 0 then [0] else (digitsLoop base n).reverse

/-- Embeds `np.base_repr(number, base)` as consumed by `centre_of_mass`
(line 173).  numpy validates `base > 36` ("Bases greater than 36 not handled
in base_repr.") and then `base < 2`; a negative number is rendered as a minus
sign followed by the digits of its absolute value.  Each character of the
returned string is modelled as an integer — a digit by its value and the
minus sign by -1 — so that the Python test `digit != '0'` becomes `≠ 0`
exactly. -/
def base_repr (number base : ℤ) : Except String (List ℤ) :=
  if 36 < base then
    Except.error "Bases greater than 36 not handled in base_repr."
  else if base < 2 then
    Except.error "Bases less than 2 not handled in base_repr."
  else
    Except.ok (if number < 0 then
      -1 :: (reprDigits base.toNat number.natAbs).map Int.ofNat
    else (reprDigits base.toNat number.toNat).map Int.ofNat)

/-- The 0-indexed positions of the non-'0' characters of a representation:
`[i for i, digit in enumerate(digits) if digit != '0']` (line 174). -/
def nonzeroPositions (ds : List ℤ) : List ℕ :=
  ((ds.enum).filter (fun p => p.2 != 0)).map Prod.fst

/-- Embeds `centre_of_mass(number, base)` (lines 171-175): validates
`base ≥ 2`, takes the positional representation, and returns the mean of the
positions of its non-zero characters, or 0 when there are none. -/
def centre_of_mass (number base : ℤ) : Except String ℚ :=
  if base < 2 then Except.error "Base must be at least 2"
  else
    match base_repr number base with
    | Except.error e => Except.error e
    | Except.ok ds =>
      let positions := nonzeroPositions ds
      Except.ok (if positions = [] then 0
        else (positions.sum : ℚ) / (positions.length : ℚ))

/-- C10 counterexample: `centre_of_mass` also raises for bases above 36
(propagated from `np.base_repr`), so "raises if and only if base < 2" is
false at base = 37. -/
theorem c10_counterexample :
    centre_of_mass 5 37 =
      Except.error "Bases greater than 36 not handled in base_repr." := rfl

/-- C10 amended: `centre_of_mass(number, base)` raises if and only if
`base < 2` or `base > 36`; within [2, 36] it accepts every integer, negative
ones included, with the minus sign counted as a non-zero character at
position 0; and the result for `-number` generally differs from the result
for `number` (witnessed at ±10 in base 10). -/
theorem c10_centre_of_mass_domain :
    (∀ number base : ℤ,
      (∃ e, centre_of_mass number base = Except.error e) ↔
        (base < 2 ∨ 36 < base)) ∧
    (∀ number base : ℤ, number < 0 → 2 ≤ base → base ≤ 36 →
      ∃ ds r, base_repr number base = Except.ok ds ∧ ds.get? 0 = some (-1) ∧
        centre_of_mass number base = Except.ok r ∧ 0 ∈ nonzeroPositions ds) ∧
    centre_of_mass (-10) 10 ≠ centre_of_mass 10 10 := by
  refine ⟨?_, ?_, ?_⟩
  · intro number base
    unfold centre_of_mass base_repr
    by_cases h2 : base < 2
    · rw [if_pos h2]
      simp only [Except.error.injEq, exists_eq']
      tauto
    · rw [if_neg h2]
      by_cases h36 : 36 < base
      · rw [if_pos h36]
        simp only [Except.error.injEq, exists_eq']
        tauto
      · rw [if_neg h36, if_neg h2]
        simp only
        constructor
        · rintro ⟨e, he⟩
          exact absurd he (by simp)
        · intro h
          rcases h with h | h
          · exact absurd h h2
          · exact absurd h h36
  · intro number base hneg h2 h36
    have hrepr : base_repr number base =
        Except.ok (-1 :: (reprDigits base.toNat number.natAbs).map Int.ofNat) := by
      unfold base_repr
      rw [if_neg (by omega), if_neg (by omega), if_pos hneg]
    have hcom : centre_of_mass number base = Except.ok
        (if nonzeroPositions
            (-1 :: (reprDigits base.toNat number.natAbs).map Int.ofNat) = []
          then 0
          else ((nonzeroPositions
              (-1 :: (reprDigits base.toNat number.natAbs).map Int.ofNat)).sum : ℚ) /
            ((nonzeroPositions
              (-1 :: (reprDigits base.toNat number.natAbs).map Int.ofNat)).length : ℚ)) := by
      unfold centre_of_mass
      rw [if_neg (by omega), hrepr]
    refine ⟨-1 :: (reprDigits base.toNat number.natAbs).map Int.ofNat, _,
      hrepr, rfl, hcom, ?_⟩
    unfold nonzeroPositions
    rw [List.enum_cons]
    rw [List.filter_cons_of_pos (by decide)]
    simp only [List.map_cons]
    exact List.mem_cons_self _ _
  · have hr1 : base_repr (-10) 10 = Except.ok [-1, 1, 0] := rfl
    have hr2 : base_repr 10 10 = Except.ok [1, 0] := rfl
    have hp1 : nonzeroPositions [-1, 1, 0] = [0, 1] := by decide
    have hp2 : nonzeroPositions [1, 0] = [0] := by decide
    have h1 : centre_of_mass (-10) 10 = Except.ok ((1 : ℚ) / 2) := by
      unfold centre_of_mass
      rw [if_neg (by norm_num), hr1]
      simp only [hp1]
      rw [if_neg (by simp)]
      norm_num
    have h2 : centre_of_mass 10 10 = Except.ok 0 := by
      unfold centre_of_mass
      rw [if_neg (by norm_num), hr2]
      simp only [hp2]
      rw [if_neg (by simp)]
      norm_num
    rw [h1, h2]
    intro h
    have := Except.ok.inj h
    norm_num at this

/-- C10 witness: the negative-number clause of the amended statement at
(-10, 10). -/
theorem c10_witness :
    (-10 : ℤ) < 0 ∧ (2 : ℤ) ≤ 10 ∧ (10 : ℤ) ≤ 36 ∧
      ∃ ds r, base_repr (-10) 10 = Except.ok ds ∧ ds.get? 0 = some (-1) ∧
        centre_of_mass (-10) 10 = Except.ok r ∧ 0 ∈ nonzeroPositions ds :=
  ⟨by decide, by decide, by decide,
    c10_centre_of_mass_domain.2.1 (-10) 10 (by decide) (by decide) (by decide)⟩

/-- Python `range(lo, hi + 1)` over integers: the inclusive base range
`range(min_base, max_base + 1)` of the feature loop (line 195). -/
def intRangeAux (lo : ℤ) : ℕ → List ℤ
  | 0 => []
  | k + 1 => lo :: intRangeAux (lo + 1) k

/-- Inclusive integer range `[lo, hi]`, empty when `hi < lo`. -/
def intRange (lo hi : ℤ) : List ℤ :=
  intRangeAux lo (hi + 1 - lo).toNat

theorem intRange_of_lt {lo hi : ℤ} (h : hi < lo) : intRange lo hi = [] := by
  unfold intRange
  rw [show (hi + 1 - lo).toNat = 0 by omega]
  rfl

theorem intRange_cons {lo hi : ℤ} (h : lo ≤ hi) :
    intRange lo hi = lo :: intRange (lo + 1) hi := by
  unfold intRange
  rw [show (hi + 1 - lo).toNat = (hi + 1 - (lo + 1)).toNat + 1 by omega,
    intRangeAux]

/-- The external statistics and numeric capability the feature extractor
consumes (spec section 6): numpy/scipy mean, median, population standard
deviation, skewness and kurtosis over a digit list, plus the float embedding
and the finiteness test used by the sanitization pass.  `F` is the
floating-point value type; `ofRat` embeds a value computed exactly by the
Python code itself, and such values are finite. -/
structure StatsLib (F : Type) where
  ofRat : ℚ → F
  isfinite : F → Bool
  mean : List ℤ → F
  median : List ℤ → F
  std : List ℤ → F
  skew : List ℤ → F
  kurtosis : List ℤ → F
  finite_ofRat : ∀ q, isfinite (ofRat q) = true

/-- Python dict assignment `m[k] = v` on an insertion-ordered association
list: overwrites in place when the key is present, appends otherwise. -/
def dictSet {α : Type} : List (String × α) → String → α → List (String × α)
  | [], k, v => [(k, v)]
  | (k', v') :: rest, k, v =>
    if k' = k then (k, v) :: rest else (k', v') :: dictSet rest k v

/-- The suffix-qualified feature key, e.g. `normalized_modulo_7`. -/
def pyKey (name : String) (b : ℤ) : String := name ++ toString b

/-- One iteration of the per-base loop of `_features_number`
(lines 195-207): digit decomposition (which raises for `base < 2` or a
negative number), centre of mass (which raises for bases above 36), the
division-by-zero hazard of `normalized_centre_of_mass` when the digit list is
empty (`number == 0` — Python `0 / 0` raises `ZeroDivisionError`), and the
nine key/value assignments of the iteration, in assignment order. -/
def baseOps {F : Type} (L : StatsLib F) (number b : ℤ) :
    Except String (List (String × F)) :=
  match digits number b with
  | Except.error e => Except.error e
  | Except.ok ds =>
    match centre_of_mass number b with
    | Except.error e => Except.error e
    | Except.ok com =>
      if ds.length = 0 then Except.error "division by zero"
      else
        Except.ok [
          (pyKey "normalized_modulo_" b,
            L.ofRat (((number % b : ℤ) : ℚ) / ((b : ℤ) : ℚ))),
          (pyKey "number_of_digits_" b, L.ofRat (ds.length : ℚ)),
          (pyKey "centre_of_mass_" b, L.ofRat com),
          (pyKey "normalized_centre_of_mass_" b,
            L.ofRat (com / (ds.length : ℚ))),
          (pyKey "digits_mean_" b, L.mean ds),
          (pyKey "digits_median_" b, L.median ds),
          (pyKey "digits_std_" b, L.std ds),
          (pyKey "digits_skew_" b, L.skew ds),
          (pyKey "digits_kurtosis_" b, L.kurtosis ds)]

/-- Applies a list of dict assignments in order. -/
def applyOps {α : Type} (m : List (String × α)) (ops : List (String × α)) :
    List (String × α) :=
  ops.foldl (fun m kv => dictSet m kv.1 kv.2) m

/-- The base loop of `_features_number`: for each base in order, run the
iteration and apply its assignments, propagating the first raise. -/
def basesLoop {F : Type} (L : StatsLib F) (number : ℤ) :
    List ℤ → List (String × F) → Except String (List (String × F))
  | [], m => Except.ok m
  | b :: bs, m =>
    match baseOps L number b with
    | Except.error e => Except.error e
    | Except.ok ops => basesLoop L number bs (applyOps m ops)

/-- The post-hoc sanitization pass (lines 208-209): every non-finite value in
the assembled mapping is replaced with 0.0. -/
def sanitize {F : Type} (L : StatsLib F) (m : List (String × F)) :
    List (String × F) :=
  m.map (fun kv => (kv.1, if L.isfinite kv.2 then kv.2 else L.ofRat 0))

/-- Embeds `_features_number(number, min_base, max_base)` (lines 193-210):
the mapping starts as `{'number': float(number)}`, the base loop fills in the
per-base features, and the sanitization pass runs before returning. -/
def _features_number {F : Type} (L : StatsLib F) (number mb MB : ℤ) :
    Except String (List (String × F)) :=
  match basesLoop L number (intRange mb MB)
      (dictSet [] "number" (L.ofRat (number : ℚ))) with
  | Except.error e => Except.error e
  | Except.ok m => Except.ok (sanitize L m)

/-- Python `iterable_features[key].append(...)` preceded by
`if key not in iterable_features: iterable_features[key] = []`
(lines 218-220): appends to the key's sequence, creating the key at the end
of the mapping on first encounter. -/
def addFeature {α : Type} : List (String × List α) → String → α →
    List (String × List α)
  | [], k, v => [(k, [v])]
  | (k', vs) :: rest, k, v =>
    if k' = k then (k', vs ++ [v]) :: rest
    else (k', vs) :: addFeature rest k v

/-- Folds one per-number feature mapping into the accumulated
mapping-of-sequences, key by key in the mapping's order. -/
def mergeFeatures {α : Type} (acc : List (String × List α))
    (nf : List (String × α)) : List (String × List α) :=
  nf.foldl (fun a kv => addFeature a kv.1 kv.2) acc

/-- The element loop of `_features_iterable` (lines 215-220).  The fixed
cadence diagnostic logging of the Python loop is an external side effect with
no behavioural contract and is not modelled. -/
def featuresIterAux {F : Type} (L : StatsLib F) (mb MB : ℤ) :
    List (String × List F) → List ℤ → Except String (List (String × List F))
  | acc, [] => Except.ok acc
  | acc, n :: ns =>
    match _features_number L n mb MB with
    | Except.error e => Except.error e
    | Except.ok nf => featuresIterAux L mb MB (mergeFeatures acc nf) ns

/-- Embeds `_features_iterable(iterable, min_base, max_base)`
(lines 212-221). -/
def _features_iterable {F : Type} (L : StatsLib F) (ns : List ℤ)
    (mb MB : ℤ) : Except String (List (String × List F)) :=
  featuresIterAux L mb MB [] ns

/-- Embeds the `features` dispatch (lines 186-191).  The external
`checks.is_iterable` capability (spec section 6; the checks module is not
part of this core) decides scalar-vs-collection routing; it is modelled as a
tagged union of the two input shapes, as the spec's design notes prescribe
for a reimplementation. -/
def features {F : Type} (L : StatsLib F) (x : ℤ ⊕ List ℤ) (mb MB : ℤ) :
    Except String (List (String × F) ⊕ List (String × List F)) :=
  match x with
  | Sum.inl n => (_features_number L n mb MB).map Sum.inl
  | Sum.inr ns => (_features_iterable L ns mb MB).map Sum.inr

/-- Insertion into an ascending list, for the model median. -/
def insertAsc (x : ℤ) : List ℤ → List ℤ
  | [] => [x]
  | y :: ys => if x ≤ y then x :: y :: ys else y :: insertAsc x ys

/-- Insertion sort, for the model median. -/
def sortAsc (l : List ℤ) : List ℤ := l.foldr insertAsc []

/-- Mean of a digit list as an exact rational (junk value 0 on []). -/
def meanQ (l : List ℤ) : ℚ := (l.sum : ℚ) / (l.length : ℚ)

/-- Central moment of order r as an exact rational (junk value 0 on []). -/
def momQ (l : List ℤ) (r : ℕ) : ℚ :=
  ((l.map (fun d => ((d : ℚ) - meanQ l) ^ r)).sum) / (l.length : ℚ)

/-- The numpy median: middle element of the sorted list, or the mean of the
two middle elements for even length. -/
def medianQ (l : List ℤ) : ℚ :=
  let s := sortAsc l
  if l.length % 2 = 1 then ((s.getD (l.length / 2) 0 : ℤ) : ℚ)
  else (((s.getD (l.length / 2 - 1) 0 : ℤ) : ℚ) +
    ((s.getD (l.length / 2) 0 : ℤ) : ℚ)) / 2

/-- A concrete `StatsLib` instance over `Option ℚ` (`none` is the non-finite
float NaN), used to evaluate the extractor on concrete inputs.  `mean` and
`median` are exact; all statistics are NaN on an empty list, and skewness and
kurtosis are NaN for a constant list (zero variance), as in numpy/scipy.
Since the square root of the variance is irrational in general, `std` carries
the variance itself and `skew` the ratio `m3 / m2 ^ 2`; these placeholders
have the same finiteness behaviour as the library values (a square root is
finite if and only if its argument is), and no theorem in this development
depends on their numeric values. -/
def ratLib : StatsLib (Option ℚ) where
  ofRat := Option.some
  isfinite := Option.isSome
  mean l := if l.length = 0 then none else some (meanQ l)
  median l := if l.length = 0 then none else some (medianQ l)
  std l := if l.length = 0 then none else some (momQ l 2)
  skew l := if l.length = 0 ∨ momQ l 2 = 0 then none
    else some (momQ l 3 / momQ l 2 ^ 2)
  kurtosis l := if l.length = 0 ∨ momQ l 2 = 0 then none
    else some (momQ l 4 / momQ l 2 ^ 2 - 3)
  finite_ofRat := fun _ => rfl

/-- C1 fails on the code: `features(0, 2, 2)` raises `ZeroDivisionError`.
For `number == 0` the digit list is empty and `centre_of_mass` returns the
Python int 0, so `normalized_centre_of_mass` computes `0 / 0`, which raises
before the sanitization pass can run — whatever the statistics library. -/
theorem c1_features_zero_raises (F : Type) (L : StatsLib F) :
    features L (Sum.inl 0) 2 2 = Except.error "division by zero" ∧
      _features_number L 0 2 2 = Except.error "division by zero" :=
  ⟨rfl, rfl⟩

/-- C3 counterexample: `features(5, min_base=10, max_base=3)` does return a
result — the base loop is empty and the mapping holds only 'number'. -/
theorem c3_counterexample :
    features ratLib (Sum.inl 5) 10 3 =
      Except.ok (Sum.inl [("number", Option.some ((5 : ℤ) : ℚ))]) := rfl

/-- C3 amended: `features` performs no explicit base-range validation.  With
`min_base > max_base` the base loop is empty and it returns a mapping holding
only the key 'number'; with `min_base < 2 ≤ max_base` a validation error is
raised, but from digit decomposition at the first base — after the 'number'
entry has been computed — not synchronously before any computation. -/
theorem c3_features_no_range_validation :
    (∀ (F : Type) (L : StatsLib F) (number mb MB : ℤ), MB < mb →
      features L (Sum.inl number) mb MB =
        Except.ok (Sum.inl [("number", L.ofRat (number : ℚ))])) ∧
    (∀ (F : Type) (L : StatsLib F) (number mb MB : ℤ), mb < 2 → mb ≤ MB →
      features L (Sum.inl number) mb MB =
        Except.error "Base must be at least 2") := by
  constructor
  · intro F L number mb MB h
    have h1 : _features_number L number mb MB =
        Except.ok [("number", L.ofRat (number : ℚ))] := by
      unfold _features_number
      rw [intRange_of_lt h]
      show Except.ok (sanitize L (dictSet [] "number" (L.ofRat (number : ℚ)))) = _
      simp [sanitize, dictSet, L.finite_ofRat]
    unfold features
    show Except.map Sum.inl (_features_number L number mb MB) = _
    rw [h1]
    rfl
  · intro F L number mb MB h2 hle
    have hd : digits number mb = Except.error "Base must be at least 2" := by
      unfold digits
      rw [if_pos h2]
    have hb : baseOps L number mb = Except.error "Base must be at least 2" := by
      unfold baseOps
      rw [hd]
    have h1 : _features_number L number mb MB =
        Except.error "Base must be at least 2" := by
      unfold _features_number
      rw [intRange_cons hle]
      show (match basesLoop L number (mb :: intRange (mb + 1) MB)
          (dictSet [] "number" (L.ofRat (number : ℚ))) with
        | Except.error e => Except.error e
        | Except.ok m => Except.ok (sanitize L m)) = _
      rw [basesLoop, hb]
    unfold features
    show Except.map Sum.inl (_features_number L number mb MB) = _
    rw [h1]
    rfl

/-- C3 witness: both clauses of the amended statement at concrete inputs
(7 with base range [10, 3], and 7 with base range [0, 5]). -/
theorem c3_witness :
    ((3 : ℤ) < 10 ∧ features ratLib (Sum.inl 7) 10 3 =
      Except.ok (Sum.inl [("number", ratLib.ofRat ((7 : ℤ) : ℚ))])) ∧
    ((0 : ℤ) < 2 ∧ (0 : ℤ) ≤ 5 ∧ features ratLib (Sum.inl 7) 0 5 =
      Except.error "Base must be at least 2") :=
  ⟨⟨by decide, c3_features_no_range_validation.1 _ ratLib 7 10 3 (by decide)⟩,
    ⟨by decide, by decide,
      c3_features_no_range_validation.2 _ ratLib 7 0 5 (by decide) (by decide)⟩⟩

/-- The nine per-base feature keys, in assignment order. -/
def baseKeys (b : ℤ) : List String :=
  [pyKey "normalized_modulo_" b, pyKey "number_of_digits_" b,
    pyKey "centre_of_mass_" b, pyKey "normalized_centre_of_mass_" b,
    pyKey "digits_mean_" b, pyKey "digits_median_" b, pyKey "digits_std_" b,
    pyKey "digits_skew_" b, pyKey "digits_kurtosis_" b]

/-- Folding dict assignments extends the key list by the unseen keys, in
first-assignment order. -/
def keysUnion (K ks : List String) : List String :=
  ks.foldl (fun K k => if k ∈ K then K else K ++ [k]) K

/-- The key list of any successful `_features_number` call: 'number' followed
by the per-base keys — a function of the base range only, independent of the
number and of the statistics library. -/
def featureKeys (mb MB : ℤ) : List String :=
  (intRange mb MB).foldl (fun K b => keysUnion K (baseKeys b)) ["number"]

theorem dictSet_fst {α : Type} (v : α) : ∀ (m : List (String × α)) (k : String),
    (dictSet m k v).map Prod.fst =
      if k ∈ m.map Prod.fst then m.map Prod.fst else m.map Prod.fst ++ [k] := by
  intro m
  induction m with
  | nil => intro k; rfl
  | cons a rest ih =>
    intro k
    obtain ⟨k', v'⟩ := a
    by_cases hk : k' = k
    · subst hk
      rw [dictSet, if_pos rfl]
      simp
    · rw [dictSet, if_neg hk]
      simp only [List.map_cons]
      rw [ih k]
      by_cases hmem : k ∈ rest.map Prod.fst
      · rw [if_pos hmem, if_pos (by simp [hmem])]
      · rw [if_neg hmem, if_neg (by simp [hmem, Ne.symm hk]), List.cons_append]

theorem keysUnion_nodup : ∀ (ks K : List String), K.Nodup →
    (keysUnion K ks).Nodup := by
  intro ks
  induction ks with
  | nil => intro K h; exact h
  | cons k ks ih =>
    intro K h
    show (keysUnion (if k ∈ K then K else K ++ [k]) ks).Nodup
    apply ih
    by_cases hmem : k ∈ K
    · rwa [if_pos hmem]
    · rw [if_neg hmem]
      rw [List.nodup_append]
      exact ⟨h, List.nodup_singleton k, by simpa using hmem⟩

theorem applyOps_fst {α : Type} : ∀ (ops m : List (String × α)),
    (applyOps m ops).map Prod.fst =
      keysUnion (m.map Prod.fst) (ops.map Prod.fst) := by
  intro ops
  induction ops with
  | nil => intro m; rfl
  | cons kv ops ih =>
    intro m
    show (applyOps (dictSet m kv.1 kv.2) ops).map Prod.fst = _
    rw [ih, dictSet_fst]
    rfl

theorem baseOps_ok_fst {F : Type} {L : StatsLib F} {number b : ℤ}
    {ops : List (String × F)} (h : baseOps L number b = Except.ok ops) :
    ops.map Prod.fst = baseKeys b := by
  unfold baseOps at h
  cases hd : digits number b with
  | error e => rw [hd] at h; cases h
  | ok ds =>
    rw [hd] at h
    dsimp only at h
    cases hc : centre_of_mass number b with
    | error e => rw [hc] at h; cases h
    | ok com =>
      rw [hc] at h
      dsimp only at h
      by_cases hlen : ds.length = 0
      · rw [if_pos hlen] at h; cases h
      · rw [if_neg hlen] at h
        have := Except.ok.inj h
        rw [← this]
        rfl

theorem basesLoop_ok_fst {F : Type} {L : StatsLib F} {number : ℤ} :
    ∀ (bs : List ℤ) (m f : List (String × F)),
      basesLoop L number bs m = Except.ok f →
      f.map Prod.fst =
        bs.foldl (fun K b => keysUnion K (baseKeys b)) (m.map Prod.fst) := by
  intro bs
  induction bs with
  | nil =>
    intro m f h
    rw [basesLoop] at h
    rw [← Except.ok.inj h, List.foldl_nil]
  | cons b bs ih =>
    intro m f h
    rw [basesLoop] at h
    cases hops : baseOps L number b with
    | error e => rw [hops] at h; cases h
    | ok ops =>
      rw [hops] at h
      dsimp only at h
      have := ih (applyOps m ops) f h
      rw [this, applyOps_fst, baseOps_ok_fst hops, List.foldl_cons]

theorem foldl_keysUnion_nodup {K : List String} (bs : List ℤ) (h : K.Nodup) :
    (bs.foldl (fun K b => keysUnion K (baseKeys b)) K).Nodup := by
  induction bs generalizing K with
  | nil => exact h
  | cons b bs ih =>
    rw [List.foldl_cons]
    exact ih (keysUnion_nodup _ _ h)

theorem sanitize_fst {F : Type} (L : StatsLib F) (m : List (String × F)) :
    (sanitize L m).map Prod.fst = m.map Prod.fst := by
  unfold sanitize
  rw [List.map_map]
  rfl

theorem fn_ok_fst {F : Type} {L : StatsLib F} {number mb MB : ℤ}
    {f : List (String × F)} (h : _features_number L number mb MB = Except.ok f) :
    f.map Prod.fst = featureKeys mb MB := by
  unfold _features_number at h
  cases hb : basesLoop L number (intRange mb MB)
      (dictSet [] "number" (L.ofRat (number : ℚ))) with
  | error e => rw [hb] at h; cases h
  | ok m =>
    rw [hb] at h
    have hf : f = sanitize L m := (Except.ok.inj h).symm
    rw [hf, sanitize_fst]
    exact basesLoop_ok_fst _ _ _ hb

theorem fn_ok_nodup {F : Type} {L : StatsLib F} {number mb MB : ℤ}
    {f : List (String × F)} (h : _features_number L number mb MB = Except.ok f) :
    (f.map Prod.fst).Nodup := by
  rw [fn_ok_fst h]
  exact foldl_keysUnion_nodup _ (List.nodup_singleton "number")

theorem lookup_of_mem_nodup {α : Type} :
    ∀ (f : List (String × α)) (k : String) (v : α),
      (f.map Prod.fst).Nodup → (k, v) ∈ f → f.lookup k = some v := by
  intro f
  induction f with
  | nil => intro k v _ hm; cases hm
  | cons a rest ih =>
    intro k v hnd hm
    obtain ⟨k', v'⟩ := a
    simp only [List.map_cons, List.nodup_cons] at hnd
    rcases List.mem_cons.mp hm with he | hm'
    · obtain ⟨hk, hv⟩ := Prod.mk.injEq .. ▸ he
      subst hk
      subst hv
      simp [List.lookup]
    · have hk : k ≠ k' := by
        intro hkk
        subst hkk
        exact hnd.1 (List.mem_map.mpr ⟨(k, v), hm', rfl⟩)
      have hbeq : (k == k') = false := by
        simpa using hk
      simp only [List.lookup, hbeq]
      exact ih k v hnd.2 hm'

theorem mergeFeatures_skip {α : Type} :
    ∀ (nf : List (String × α)) (acc : List (String × List α)) (k : String)
      (x : List α), k ∉ nf.map Prod.fst →
      mergeFeatures ((k, x) :: acc) nf = (k, x) :: mergeFeatures acc nf := by
  intro nf
  induction nf with
  | nil => intro acc k x _; rfl
  | cons kv nf ih =>
    intro acc k x hk
    simp only [List.map_cons, List.mem_cons, not_or] at hk
    show mergeFeatures (addFeature ((k, x) :: acc) kv.1 kv.2) nf = _
    rw [show addFeature ((k, x) :: acc) kv.1 kv.2 =
        (k, x) :: addFeature acc kv.1 kv.2 by
      rw [addFeature, if_neg hk.1]]
    rw [ih _ k x hk.2]
    rfl

theorem mergeFeatures_nil {α : Type} :
    ∀ (nf : List (String × α)), (nf.map Prod.fst).Nodup →
      mergeFeatures [] nf = nf.map (fun kv => (kv.1, [kv.2])) := by
  intro nf
  induction nf with
  | nil => intro _; rfl
  | cons kv nf ih =>
    intro hnd
    simp only [List.map_cons, List.nodup_cons] at hnd
    show mergeFeatures (addFeature [] kv.1 kv.2) nf = _
    rw [show addFeature [] kv.1 kv.2 = [(kv.1, [kv.2])] from rfl]
    rw [mergeFeatures_skip nf [] kv.1 [kv.2] hnd.1, ih hnd.2]
    rfl

theorem mergeFeatures_aligned {α : Type} :
    ∀ (nf : List (String × α)) (acc : List (String × List α)),
      acc.map Prod.fst = nf.map Prod.fst → (nf.map Prod.fst).Nodup →
      mergeFeatures acc nf =
        List.zipWith (fun a b => (a.1, a.2 ++ [b.2])) acc nf := by
  intro nf
  induction nf with
  | nil =>
    intro acc hk _
    have : acc = [] := by
      cases acc with
      | nil => rfl
      | cons a acc => simp at hk
    subst this
    rfl
  | cons kv nf ih =>
    intro acc hk hnd
    cases acc with
    | nil => simp at hk
    | cons a acc =>
      obtain ⟨k₂, vs⟩ := a
      obtain ⟨kv1, v⟩ := kv
      simp only [List.map_cons, List.cons.injEq] at hk
      obtain ⟨hk1, hktail⟩ := hk
      simp only [List.map_cons, List.nodup_cons] at hnd
      subst hk1
      show mergeFeatures (addFeature ((k₂, vs) :: acc) k₂ v) nf = _
      rw [show addFeature ((k₂, vs) :: acc) k₂ v =
          (k₂, vs ++ [v]) :: acc by rw [addFeature, if_pos rfl]]
      rw [mergeFeatures_skip nf acc k₂ (vs ++ [v]) hnd.1]
      rw [ih acc hktail hnd.2]
      rfl

theorem mem_zipWith {α β γ : Type} {g : α → β → γ} :
    ∀ {l₁ : List α} {l₂ : List β} {p : γ}, p ∈ List.zipWith g l₁ l₂ →
      ∃ j a b, l₁.get? j = some a ∧ l₂.get? j = some b ∧ p = g a b := by
  intro l₁
  induction l₁ with
  | nil => intro l₂ p hp; simp at hp
  | cons a l₁ ih =>
    intro l₂ p hp
    cases l₂ with
    | nil => simp at hp
    | cons b l₂ =>
      rw [List.zipWith_cons_cons] at hp
      rcases List.mem_cons.mp hp with he | hm
      · exact ⟨0, a, b, rfl, rfl, he⟩
      · obtain ⟨j, a', b', h1, h2, h3⟩ := ih hm
        exact ⟨j + 1, a', b', h1, h2, h3⟩

theorem zipWith_append_fst {α : Type} :
    ∀ (acc : List (String × List α)) (nf : List (String × α)),
      acc.map Prod.fst = nf.map Prod.fst →
      (List.zipWith (fun a b => (a.1, a.2 ++ [b.2])) acc nf).map Prod.fst =
        acc.map Prod.fst := by
  intro acc
  induction acc with
  | nil => intro nf _; rfl
  | cons a acc ih =>
    intro nf hk
    cases nf with
    | nil => simp at hk
    | cons b nf =>
      simp only [List.map_cons, List.cons.injEq] at hk
      rw [List.zipWith_cons_cons]
      simp only [List.map_cons]
      rw [ih nf hk.2]

theorem iterAux_align {F : Type} (L : StatsLib F) (mb MB : ℤ) :
    ∀ (ns : List ℤ) (acc : List (String × List F)) (done : List ℤ)
      (m : List (String × List F)),
      featuresIterAux L mb MB acc ns = Except.ok m →
      ((acc = [] ∧ done = []) ∨ acc.map Prod.fst = featureKeys mb MB) →
      (∀ k vs, (k, vs) ∈ acc → vs.length = done.length ∧
        ∀ i n', done.get? i = some n' → ∃ f v,
          _features_number L n' mb MB = Except.ok f ∧
            f.lookup k = some v ∧ vs.get? i = some v) →
      (∀ k vs, (k, vs) ∈ m → vs.length = done.length + ns.length ∧
        ∀ i n', (done ++ ns).get? i = some n' → ∃ f v,
          _features_number L n' mb MB = Except.ok f ∧
            f.lookup k = some v ∧ vs.get? i = some v) := by
  intro ns
  induction ns with
  | nil =>
    intro acc done m hrun _ hinv
    rw [featuresIterAux] at hrun
    rw [← Except.ok.inj hrun]
    intro k vs hm
    obtain ⟨h1, h2⟩ := hinv k vs hm
    exact ⟨by simpa using h1, by simpa using h2⟩
  | cons n ns ih =>
    intro acc done m hrun hkeys hinv
    rw [featuresIterAux] at hrun
    cases hfn : _features_number L n mb MB with
    | error e => rw [hfn] at hrun; cases hrun
    | ok f =>
      rw [hfn] at hrun
      have hffst : f.map Prod.fst = featureKeys mb MB := fn_ok_fst hfn
      have hfnd : (f.map Prod.fst).Nodup := fn_ok_nodup hfn
      have key : ∀ k vs, (k, vs) ∈ mergeFeatures acc f →
          vs.length = (done ++ [n]).length ∧
          ∀ i n', (done ++ [n]).get? i = some n' → ∃ f' v,
            _features_number L n' mb MB = Except.ok f' ∧
              f'.lookup k = some v ∧ vs.get? i = some v := by
        rcases hkeys with ⟨hae, hde⟩ | hka
        · subst hae
          subst hde
          rw [mergeFeatures_nil f hfnd]
          intro k vs hm
          obtain ⟨kv, hkv, hkveq⟩ := List.mem_map.mp hm
          obtain ⟨hk1, hk2⟩ := Prod.mk.injEq .. ▸ hkveq
          constructor
          · rw [← hk2]
            rfl
          · intro i n' hi
            have hi0 : i = 0 ∧ n' = n := by
              cases i with
              | zero => exact ⟨rfl, by simpa using hi.symm⟩
              | succ j => simp at hi
            obtain ⟨hi0, hn'⟩ := hi0
            subst hi0
            subst hn'
            refine ⟨f, kv.2, hfn, ?_, ?_⟩
            · rw [← hk1]
              exact lookup_of_mem_nodup f kv.1 kv.2 hfnd
                (by rw [show (kv.1, kv.2) = kv from rfl]; exact hkv)
            · rw [← hk2]
              rfl
        · have hacc_f : acc.map Prod.fst = f.map Prod.fst := by
            rw [hka, hffst]
          rw [mergeFeatures_aligned f acc hacc_f hfnd]
          intro k vs' hm
          obtain ⟨j, a, b, hja, hjb, hab⟩ := mem_zipWith hm
          obtain ⟨hk1, hk2⟩ := Prod.mk.injEq .. ▸ hab
          have hb1 : b.1 = a.1 := by
            have h₁ : (acc.map Prod.fst).get? j = some a.1 := by
              rw [List.get?_map, hja]
              rfl
            have h₂ : (f.map Prod.fst).get? j = some b.1 := by
              rw [List.get?_map, hjb]
              rfl
            rw [hacc_f] at h₁
            rw [h₁] at h₂
            exact (Option.some.inj h₂).symm
          have hamem : (k, a.2) ∈ acc := by
            have := List.get?_mem hja
            rw [show a = (a.1, a.2) from rfl, ← hk1] at this
            exact this
          have hbmem : (k, b.2) ∈ f := by
            have := List.get?_mem hjb
            rw [show b = (b.1, b.2) from rfl, hb1, ← hk1] at this
            exact this
          obtain ⟨hlen, hpos⟩ := hinv k a.2 hamem
          constructor
          · rw [hk2]
            simp [hlen]
          · intro i n' hi
            rcases Nat.lt_trichotomy i done.length with hlt | heq | hgt
            · rw [List.get?_append hlt] at hi
              obtain ⟨f', v, hv1, hv2, hv3⟩ := hpos i n' hi
              refine ⟨f', v, hv1, hv2, ?_⟩
              rw [hk2]
              rw [List.get?_append (by omega)]
              exact hv3
            · subst heq
              rw [List.get?_concat_length] at hi
              have hn' : n' = n := by simpa using hi.symm
              subst hn'
              refine ⟨f, b.2, hfn, ?_, ?_⟩
              · exact lookup_of_mem_nodup f k b.2 hfnd hbmem
              · rw [hk2]
                rw [← hlen, List.get?_concat_length]
            · rw [List.get?_eq_none.mpr (by simp; omega)] at hi
              cases hi
      have hkeys' : (mergeFeatures acc f = [] ∧ done ++ [n] = []) ∨
          (mergeFeatures acc f).map Prod.fst = featureKeys mb MB := by
        right
        rcases hkeys with ⟨hae, hde⟩ | hka
        · subst hae
          rw [mergeFeatures_nil f hfnd, List.map_map]
          rw [show (Prod.fst ∘ fun kv : String × F => (kv.1, [kv.2])) =
            Prod.fst from rfl]
          exact hffst
        · have hacc_f : acc.map Prod.fst = f.map Prod.fst := by
            rw [hka, hffst]
          rw [mergeFeatures_aligned f acc hacc_f hfnd,
            zipWith_append_fst acc f hacc_f]
          exact hka
      have := ih (mergeFeatures acc f) (done ++ [n]) m hrun hkeys' key
      intro k vs hm
      obtain ⟨h1, h2⟩ := this k vs hm
      refine ⟨by simp at h1 ⊢; omega, ?_⟩
      intro i n' hi
      apply h2
      rw [List.append_assoc]
      exact hi

/-- C9: for a collection input, every key of the returned mapping carries one
value per input element, and the value at position i is exactly the value
`_features_number` produces for element i at that key. -/
theorem c9_collection_alignment (F : Type) (L : StatsLib F) (ns : List ℤ)
    (mb MB : ℤ) (m : List (String × List F))
    (h : features L (Sum.inr ns) mb MB = Except.ok (Sum.inr m)) :
    ∀ k vs, (k, vs) ∈ m → vs.length = ns.length ∧
      ∀ i n', ns.get? i = some n' → ∃ f v,
        _features_number L n' mb MB = Except.ok f ∧
          f.lookup k = some v ∧ vs.get? i = some v := by
  have hiter : _features_iterable L ns mb MB = Except.ok m := by
    unfold features at h
    cases hit : _features_iterable L ns mb MB with
    | error e =>
      rw [show (match (Sum.inr ns : ℤ ⊕ List ℤ) with
        | Sum.inl n => Except.map Sum.inl (_features_number L n mb MB)
        | Sum.inr ns => Except.map Sum.inr (_features_iterable L ns mb MB)) =
          Except.map Sum.inr (_features_iterable L ns mb MB) from rfl,
        hit] at h
      cases h
    | ok m' =>
      rw [show (match (Sum.inr ns : ℤ ⊕ List ℤ) with
        | Sum.inl n => Except.map Sum.inl (_features_number L n mb MB)
        | Sum.inr ns => Except.map Sum.inr (_features_iterable L ns mb MB)) =
          Except.map Sum.inr (_features_iterable L ns mb MB) from rfl,
        hit] at h
      have := Except.ok.inj h
      exact congrArg Except.ok (Sum.inr.inj this)
  have := iterAux_align L mb MB ns [] [] m hiter (Or.inl ⟨rfl, rfl⟩)
    (by intro k vs hm; cases hm)
  intro k vs hm
  obtain ⟨h1, h2⟩ := this k vs hm
  refine ⟨by simpa using h1, ?_⟩
  intro i n' hi
  exact h2 i n' (by simpa using hi)

/-- The concrete result of the collection extractor on the one-element
collection [1] with base range [2, 2], used by the C9 witness. -/
def c9M : List (String × List (Option ℚ)) :=
  (_features_iterable ratLib [1] 2 2).toOption.getD []

/-- C9 witness: the alignment statement at the collection [1] with base
range [2, 2] and the key 'number'. -/
theorem c9_witness :
    [Option.some ((1 : ℤ) : ℚ)].length = [(1 : ℤ)].length ∧
      ∃ f v, _features_number ratLib 1 2 2 = Except.ok f ∧
        f.lookup "number" = some v ∧
        [Option.some ((1 : ℤ) : ℚ)].get? 0 = some v := by
  have h := c9_collection_alignment (Option ℚ) ratLib [1] 2 2 c9M rfl
    "number" [Option.some ((1 : ℤ) : ℚ)] (by decide)
  exact ⟨h.1, h.2 0 1 rfl⟩

end Adiutor
